import Mathlib

/-
Verification of the go-slice-patterns repository: a shallow embedding of its
data model (the User record and the three container shapes over it), of the
encoding/json marshalling behaviour the demos print, and of the utility
functions of the examples/side_effects_and_nil program, together with proofs
of the behavioural properties the repository demonstrates.
-/

/-- JSON document AST. `encoding/json.Marshal` produces a JSON document;
we model the document structurally (objects as key/value lists in field
order, absent fields simply missing) rather than as a byte string, which
abstracts only the concrete syntax. `null` is the "no value" marker Go
emits for a nil pointer or nil slice. -/
inductive JVal where
  | null : JVal
  | jnum : Int → JVal
  | jstr : String → JVal
  | jarr : List JVal → JVal
  | jobj : List (String × JVal) → JVal

/-- Whether a JSON value is the "no value" marker. -/
def JVal.isNull : JVal → Bool
  | .null => true
  | _ => false

namespace Bench

/-- The User record of main.go (also used by the benchmark file):
ID and Age are Go `uint`, modelled as Nat — every value the program builds
is far below 2^64, so no wrap-around occurs. -/
structure User where
  ID : Nat
  Name : String
  Age : Nat
  Email : String
  City : String
deriving DecidableEq, Inhabited

/-- JSON encoding of a User: no json tags on the field declarations, so
Marshal uses the Go field names as keys, in declaration order. -/
def jsonUser (u : User) : JVal :=
  .jobj [("ID", .jnum u.ID), ("Name", .jstr u.Name), ("Age", .jnum u.Age),
         ("Email", .jstr u.Email), ("City", .jstr u.City)]

/-- Pattern A of main.go: `Users []User` with tag `json:"users,omitempty"`.
A Go slice is either nil or backed: `none` models the nil slice, `some l`
a backed slice with contents `l`. -/
structure HogeA where
  Users : Option (List User)

/-- Pattern B of main.go: `Users *[]User` with tag `json:"users,omitempty"`.
The outer Option models the pointer (none = nil pointer), the inner Option
the pointed-to slice (none = nil slice). -/
structure FugaB where
  Users : Option (Option (List User))

/-- Pattern C of main.go: `Users []*User` with tag `json:"users,omitempty"`.
`none` models the nil slice; an element `none` models a nil *User. -/
structure PiyoC where
  Users : Option (List (Option User))

/-- Go's len() of a possibly-nil slice: a nil slice has length 0. -/
def sliceLen : Option (List α) → Nat
  | none => 0
  | some l => l.length

/-- Marshal of a possibly-nil `[]User`: a nil slice encodes as null,
a backed slice as an array. -/
def marshalUserSlice : Option (List User) → JVal
  | none => .null
  | some l => .jarr (l.map jsonUser)

/-- Marshal of a `*User` element: a nil pointer encodes as null. -/
def jsonPtrUser : Option User → JVal
  | none => .null
  | some u => jsonUser u

/-- encoding/json of HogeA. `omitempty` treats a slice as empty when
`len(v) == 0`, so the users field is omitted for a nil slice and for a
backed slice with zero elements alike. -/
def marshalHogeA (a : HogeA) : JVal :=
  if sliceLen a.Users = 0 then .jobj []
  else .jobj [("users", .jarr ((a.Users.getD []).map jsonUser))]

/-- encoding/json of FugaB. `omitempty` on a pointer field tests only
whether the pointer is nil: a non-nil pointer is never omitted, and the
pointed-to slice is then encoded (null when the slice is nil, an array
otherwise). -/
def marshalFugaB (b : FugaB) : JVal :=
  match b.Users with
  | none => .jobj []
  | some s => .jobj [("users", marshalUserSlice s)]

/-- encoding/json of PiyoC. As for HogeA, `omitempty` omits the field
whenever the slice of element pointers has length 0. -/
def marshalPiyoC (c : PiyoC) : JVal :=
  if sliceLen c.Users = 0 then .jobj []
  else .jobj [("users", .jarr ((c.Users.getD []).map jsonPtrUser))]

end Bench

open Bench in
/-- Claim C1, as stated, is false. The claim says the
"omit the users field when the collection is absent or has zero elements"
rule applies to exactly one of the three shapes, with the other two
distinguishing an absent from an empty collection. Concretely this fails:
the value-sequence shape HogeA and the sequence-of-references shape PiyoC
BOTH omit the field for absent and for empty collections (so two shapes,
not one, follow the rule), and only FugaB distinguishes the two cases. -/
theorem omitempty_not_exactly_one_shape :
    ¬ (((marshalHogeA ⟨none⟩ = marshalHogeA ⟨some []⟩) ∧
        marshalFugaB ⟨none⟩ ≠ marshalFugaB ⟨some (some [])⟩ ∧
        marshalPiyoC ⟨none⟩ ≠ marshalPiyoC ⟨some []⟩) ∨
       ((marshalHogeA ⟨none⟩ ≠ marshalHogeA ⟨some []⟩) ∧
        marshalFugaB ⟨none⟩ = marshalFugaB ⟨some (some [])⟩ ∧
        marshalPiyoC ⟨none⟩ ≠ marshalPiyoC ⟨some []⟩) ∨
       ((marshalHogeA ⟨none⟩ ≠ marshalHogeA ⟨some []⟩) ∧
        marshalFugaB ⟨none⟩ ≠ marshalFugaB ⟨some (some [])⟩ ∧
        marshalPiyoC ⟨none⟩ = marshalPiyoC ⟨some []⟩)) := by
  rintro (⟨-, -, hC⟩ | ⟨hA, -, -⟩ | ⟨hA, -, -⟩)
  · exact hC rfl
  · exact hA rfl
  · exact hA rfl

open Bench in
/-- Claim C1, amended: the omit-if-absent-or-empty rule applies to exactly
two of the three shapes. HogeA and PiyoC serialize an absent collection and
an empty collection identically (both omit the users field, producing the
empty object), while FugaB distinguishes them: a nil pointer omits the
field, a pointer to an empty slice produces an explicit empty array. -/
theorem omitempty_exactly_two_shapes :
    marshalHogeA ⟨none⟩ = marshalHogeA ⟨some []⟩ ∧
    marshalHogeA ⟨none⟩ = .jobj [] ∧
    marshalPiyoC ⟨none⟩ = marshalPiyoC ⟨some []⟩ ∧
    marshalPiyoC ⟨none⟩ = .jobj [] ∧
    marshalFugaB ⟨none⟩ ≠ marshalFugaB ⟨some (some [])⟩ ∧
    marshalFugaB ⟨none⟩ = .jobj [] ∧
    marshalFugaB ⟨some (some [])⟩ = .jobj [("users", .jarr [])] := by
  refine ⟨rfl, rfl, rfl, rfl, ?_, rfl, rfl⟩
  simp [marshalFugaB, marshalUserSlice]

namespace Demo

/-- The User record of examples/side_effects_and_nil/main.go: here ID is a
Go int (modelled as Int) and this record has no Age field. -/
structure User where
  ID : Int
  Name : String
  Email : String
  City : String
deriving DecidableEq, Inhabited

/-- Go string comparison `a < b`: byte-wise lexicographic over the UTF-8
encoding, which coincides with codepoint-lexicographic order; modelled as
the lexicographic order on the character list. -/
def strLt (a b : String) : Bool := decide (a.data < b.data)

/-- The nil-aware Less function passed to sort.Slice in nilPitfallsDemo,
expressed on the pair of elements it compares: both nil → false, left nil →
false, right nil → true (nil sorts last), otherwise compare names. -/
def nilLess : Option User → Option User → Bool
  | none, none => false
  | none, some _ => false
  | some _, none => true
  | some a, some b => strLt a.Name b.Name

/-- The ordering sort.Slice establishes from a less function: x may stand
before y exactly when y is not less than x. -/
def sortRel (x y : Option User) : Prop := nilLess y x = false

instance : DecidableRel sortRel := fun _ _ => instDecidableEqBool _ _

/-- The sort.Slice call of nilPitfallsDemo. For a strict-weak-order less
function, sort.Slice guarantees a permutation of the input in which no
later element is less than an earlier one; insertion sort with
`x ≼ y := !(less y x)` realizes exactly that observable contract (and,
like the demo run, never dereferences a nil element: the comparator
handles nil explicitly). -/
def sortPtrs (ps : List (Option User)) : List (Option User) :=
  ps.insertionSort sortRel

/-- compactNonNil: keep, in order, exactly the non-nil pointers. -/
def compactNonNil : List (Option User) → List (Option User)
  | [] => []
  | none :: ps => compactNonNil ps
  | some u :: ps => some u :: compactNonNil ps

/-- toValueSlice: dereference the non-nil pointers, in order, skipping nil
slots (`if p == nil { continue }`). -/
def toValueSlice : List (Option User) → List User
  | [] => []
  | none :: ps => toValueSlice ps
  | some u :: ps => u :: toValueSlice ps

/-- JSON encoding of this program's User (keys are the Go field names). -/
def jsonUser (u : User) : JVal :=
  .jobj [("ID", .jnum u.ID), ("Name", .jstr u.Name),
         ("Email", .jstr u.Email), ("City", .jstr u.City)]

/-- json.Marshal of the elements of a []*User, element by element: a nil
pointer marshals to null, a non-nil pointer to the record's object. -/
def marshalPtrElems (ps : List (Option User)) : List JVal :=
  ps.map (fun p => match p with
    | none => JVal.null
    | some u => jsonUser u)

/-- Value-style update of safePatternsDemo: u is received by value, the
copy's City is set and the copy returned; the caller's record is untouched. -/
def withCity (u : User) (city : String) : User := { u with City := city }

/-- A heap of User records: pointers are addresses, a *User is an
`Option Nat` (none = nil pointer). Mutation through a pointer is a heap
update, visible to every other holder of the same address. -/
abbrev Heap : Type := Nat → User

/-- Heap update at one address (one pointer-target mutation, e.g.
`p.Name = ...` writes the record with the changed field back at p). -/
def hupd (h : Heap) (a : Nat) (v : User) : Heap :=
  fun x => if x = a then v else h x

/-- Dereference a possibly-nil pointer to the optional pointee. -/
def deref (h : Heap) : Option Nat → Option User
  | none => none
  | some a => some (h a)

/-- filterPtr: append the pointer itself (no copy) whenever the predicate
accepts it. The predicate receives the pointer; we model predicates that
examine the (optional) pointee. -/
def filterPtr (h : Heap) (pred : Option User → Bool) :
    List (Option Nat) → List (Option Nat)
  | [] => []
  | p :: ps =>
    if pred (deref h p) then p :: filterPtr h pred ps
    else filterPtr h pred ps

/-- append([]*User(nil), ps...): a fresh slice holding the same pointers. -/
def shallowCopyPtrs (ps : List (Option Nat)) : List (Option Nat) := [] ++ ps

/-- Setting the Name field of a record (the mutation the demos perform). -/
def withName (u : User) (n : String) : User := { u with Name := n }

/-- filterPtrDeepCopy: skip nil and rejected pointers; for an accepted
pointer copy the record (`cp := *p`) into a fresh cell and append the fresh
pointer. Allocation is modelled by handing the function the next free
address `base`; freshness is a hypothesis of the theorems. Returns the
result pointers and the heap extended with the copies. -/
def filterPtrDeepCopy (pred : Option User → Bool) :
    List (Option Nat) → Heap → Nat → List Nat × Heap
  | [], h, _ => ([], h)
  | none :: ps, h, base => filterPtrDeepCopy pred ps h base
  | some a :: ps, h, base =>
    if pred (some (h a)) then
      let r := filterPtrDeepCopy pred ps (hupd h base (h a)) (base + 1)
      (base :: r.1, r.2)
    else filterPtrDeepCopy pred ps h base

end Demo

namespace Demo

/-- The nil-aware comparator is total as a "may stand before" relation:
two elements are never each strictly less than the other. -/
instance : IsTotal (Option User) sortRel where
  total x y := by
    rcases x with _ | a <;> rcases y with _ | b <;>
      simp [sortRel, nilLess, strLt]
    exact le_total a.Name.data b.Name.data

/-- The nil-aware comparator's "may stand before" relation is transitive. -/
instance : IsTrans (Option User) sortRel where
  trans x y z hxy hyz := by
    rcases x with _ | a <;> rcases y with _ | b <;> rcases z with _ | c <;>
      simp_all [sortRel, nilLess, strLt]
    exact le_trans hxy hyz

end Demo

/-- Claim C2: sorting any sequence of element references with the nil-aware
comparator terminates without fault (the comparator never dereferences a
nil slot, and the model is a total function) and yields a permutation of
the input in which (i) no later element is less than an earlier one,
(ii) every absent slot comes after every present slot, (iii) present slots
are ordered by name ascending, and (iv) absent-vs-absent compares as equal
(less is false both ways). -/
theorem sortPtrs_spec (ps : List (Option Demo.User)) :
    (Demo.sortPtrs ps).Perm ps ∧
    List.Pairwise (fun x y => Demo.nilLess y x = false) (Demo.sortPtrs ps) ∧
    List.Pairwise (fun x y => x = none → y = none) (Demo.sortPtrs ps) ∧
    List.Pairwise (fun x y => ∀ a b, x = some a → y = some b →
      Demo.strLt b.Name a.Name = false) (Demo.sortPtrs ps) ∧
    Demo.nilLess none none = false := by
  have hperm := List.perm_insertionSort Demo.sortRel ps
  have hsorted := List.sorted_insertionSort Demo.sortRel ps
  refine ⟨hperm, hsorted, ?_, ?_, rfl⟩
  · refine hsorted.imp ?_
    rintro x y hxy rfl
    rcases y with _ | b
    · rfl
    · simp [Demo.sortRel, Demo.nilLess] at hxy
  · refine hsorted.imp ?_
    rintro x y hxy a b rfl rfl
    simpa [Demo.sortRel, Demo.nilLess] using hxy

/-- Closed instance of sortPtrs_spec at a concrete input. -/
theorem sortPtrs_spec_witness :
    (Demo.sortPtrs [some ⟨1, "Alice", "a@example.com", "Sendai"⟩, none]).Perm
      [some ⟨1, "Alice", "a@example.com", "Sendai"⟩, none] ∧
    List.Pairwise (fun x y => Demo.nilLess y x = false)
      (Demo.sortPtrs [some ⟨1, "Alice", "a@example.com", "Sendai"⟩, none]) ∧
    List.Pairwise (fun x y => x = none → y = none)
      (Demo.sortPtrs [some ⟨1, "Alice", "a@example.com", "Sendai"⟩, none]) ∧
    List.Pairwise (fun x y => ∀ a b, x = some a → y = some b →
      Demo.strLt b.Name a.Name = false)
      (Demo.sortPtrs [some ⟨1, "Alice", "a@example.com", "Sendai"⟩, none]) ∧
    Demo.nilLess none none = false :=
  sortPtrs_spec [some ⟨1, "Alice", "a@example.com", "Sendai"⟩, none]

/-- Claim C7: on the concrete nilPitfallsDemo input
[{1,Alice,Sendai}, nil, {3,Carol,Nagoya}], the nil-aware sort yields the
order [Alice, Carol, nil], and compacting the nil slots before
serialization yields a collection of exactly 2 records. -/
theorem nilPitfalls_concrete_example :
    Demo.sortPtrs [some ⟨1, "Alice", "a@example.com", "Sendai"⟩, none,
        some ⟨3, "Carol", "c@example.com", "Nagoya"⟩] =
      [some ⟨1, "Alice", "a@example.com", "Sendai"⟩,
       some ⟨3, "Carol", "c@example.com", "Nagoya"⟩, none] ∧
    (Demo.compactNonNil [some ⟨1, "Alice", "a@example.com", "Sendai"⟩, none,
        some ⟨3, "Carol", "c@example.com", "Nagoya"⟩]).length = 2 :=
  ⟨by decide, rfl⟩

/-- Claim C9: the value-style update withCity returns a record whose City
is the given city and whose other fields (ID, Name, Email — this program's
User has no Age field) are those of u; u is received by value, so the
caller's record is unchanged by the call. -/
theorem withCity_preserves_other_fields (u : Demo.User) (city : String) :
    (Demo.withCity u city).City = city ∧
    (Demo.withCity u city).ID = u.ID ∧
    (Demo.withCity u city).Name = u.Name ∧
    (Demo.withCity u city).Email = u.Email :=
  ⟨rfl, rfl, rfl, rfl⟩

/-- Claim C10: toValueSlice itself already skips nil slots — it returns
exactly the dereferenced values of the non-nil elements in their original
relative order (it is filterMap of the identity), so running compactNonNil
first is redundant: toValueSlice (compactNonNil ps) = toValueSlice ps. -/
theorem toValueSlice_compact_redundant (ps : List (Option Demo.User)) :
    Demo.toValueSlice (Demo.compactNonNil ps) = Demo.toValueSlice ps ∧
    Demo.toValueSlice ps = ps.filterMap (fun p => p) ∧
    (Demo.toValueSlice ps).length = (ps.filter (fun p => p.isSome)).length := by
  induction ps with
  | nil => exact ⟨rfl, rfl, rfl⟩
  | cons p ps ih =>
    obtain ⟨ih1, ih2, ih3⟩ := ih
    rcases p with _ | u <;> refine ⟨?_, ?_, ?_⟩
    · simpa [Demo.toValueSlice, Demo.compactNonNil] using ih1
    · simpa [Demo.toValueSlice] using ih2
    · simpa [Demo.toValueSlice] using ih3
    · simpa [Demo.toValueSlice, Demo.compactNonNil] using ih1
    · simpa [Demo.toValueSlice] using ih2
    · simpa [Demo.toValueSlice] using ih3

/-- Every pointer kept by compactNonNil is non-nil. -/
theorem mem_compactNonNil_isSome {p : Option Demo.User}
    {ps : List (Option Demo.User)} (hp : p ∈ Demo.compactNonNil ps) :
    p.isSome := by
  induction ps with
  | nil => cases hp
  | cons q ps ih =>
    rcases q with _ | u
    · exact ih hp
    · cases hp with
      | head => rfl
      | tail _ hp => exact ih hp

/-- Claim C3: marshalling a sequence of element references after removing
the nil slots with compactNonNil produces no "no value" (null) marker at
all, while marshalling the sequence as-is produces exactly one null per nil
slot, at exactly that slot's original position among the elements. -/
theorem marshal_null_per_nil_slot (ps : List (Option Demo.User)) :
    (∀ v ∈ Demo.marshalPtrElems (Demo.compactNonNil ps), v ≠ JVal.null) ∧
    (Demo.marshalPtrElems ps).countP JVal.isNull =
      ps.countP (fun p => p.isNone) ∧
    (∀ i : Nat,
      (Demo.marshalPtrElems ps)[i]? = some JVal.null ↔ ps[i]? = some none) := by
  refine ⟨?_, ?_, ?_⟩
  · intro v hv
    rcases List.mem_map.mp hv with ⟨p, hp, rfl⟩
    have hs := mem_compactNonNil_isSome hp
    rcases p with _ | u
    · cases hs
    · simp [Demo.jsonUser]
  · rw [Demo.marshalPtrElems, List.countP_map]
    refine List.countP_congr ?_
    intro p _
    rcases p with _ | u <;> simp [JVal.isNull, Demo.jsonUser]
  · intro i
    simp only [Demo.marshalPtrElems, List.getElem?_map]
    rcases h : ps[i]? with _ | p
    · simp
    · rcases p with _ | u <;> simp [Demo.jsonUser]

/-- Closed instance of marshal_null_per_nil_slot at a concrete input:
after compaction the one marshalled record is not the null marker. -/
theorem marshal_null_per_nil_slot_witness :
    Demo.jsonUser ⟨1, "Alice", "a@example.com", "Sendai"⟩ ≠ JVal.null :=
  (marshal_null_per_nil_slot
      [some ⟨1, "Alice", "a@example.com", "Sendai"⟩, none]).1
    (Demo.jsonUser ⟨1, "Alice", "a@example.com", "Sendai"⟩)
    (by simp [Demo.compactNonNil, Demo.marshalPtrElems])

/-- filterPtr keeps pointers of the source slice themselves: membership in
the filter result implies membership in the source. -/
theorem mem_filterPtr {h : Demo.Heap} {pred : Option Demo.User → Bool}
    {p : Option Nat} {ps : List (Option Nat)}
    (hp : p ∈ Demo.filterPtr h pred ps) : p ∈ ps := by
  induction ps with
  | nil => cases hp
  | cons q ps ih =>
    simp only [Demo.filterPtr] at hp
    split at hp
    · cases hp with
      | head => exact List.mem_cons_self _ _
      | tail _ hp => exact List.mem_cons_of_mem _ (ih hp)
    · exact List.mem_cons_of_mem _ (ih hp)

/-- Claim C4: filterPtr copies nothing — every pointer it returns is an
element of the source slice (and of any shallow copy of the slice, which
holds the same pointers), so mutating a field through a filtered pointer
mutates the one shared record: after writing the Name through address a,
the record at a — the same record every source slot holding a refers to —
has the new Name and its identifier unchanged. -/
theorem filterPtr_aliases_source (h : Demo.Heap)
    (pred : Option Demo.User → Bool) (ps : List (Option Nat)) (a : Nat)
    (ha : some a ∈ Demo.filterPtr h pred ps) (n : String) :
    some a ∈ ps ∧
    some a ∈ Demo.shallowCopyPtrs ps ∧
    Demo.hupd h a (Demo.withName (h a) n) a = Demo.withName (h a) n ∧
    (Demo.hupd h a (Demo.withName (h a) n) a).Name = n ∧
    (Demo.hupd h a (Demo.withName (h a) n) a).ID = (h a).ID ∧
    Demo.deref (Demo.hupd h a (Demo.withName (h a) n)) (some a) =
      some (Demo.withName (h a) n) := by
  have hmem := mem_filterPtr ha
  exact ⟨hmem, hmem, by simp [Demo.hupd], by simp [Demo.hupd, Demo.withName],
    by simp [Demo.hupd, Demo.withName], by simp [Demo.deref, Demo.hupd]⟩

/-- Closed instance of filterPtr_aliases_source: one record in Sendai at
address 0, filtered by city, then renamed through the filter result. -/
theorem filterPtr_aliases_source_witness :
    some 0 ∈ [some 0] ∧
    some 0 ∈ Demo.shallowCopyPtrs [some 0] ∧
    Demo.hupd (fun _ => ⟨1, "Alice", "a@example.com", "Sendai"⟩) 0
        (Demo.withName ((fun _ => (⟨1, "Alice", "a@example.com", "Sendai"⟩ :
          Demo.User)) 0) "Alice-Updated") 0 =
      Demo.withName ((fun _ => (⟨1, "Alice", "a@example.com", "Sendai"⟩ :
          Demo.User)) 0) "Alice-Updated" ∧
    (Demo.hupd (fun _ => ⟨1, "Alice", "a@example.com", "Sendai"⟩) 0
        (Demo.withName ((fun _ => (⟨1, "Alice", "a@example.com", "Sendai"⟩ :
          Demo.User)) 0) "Alice-Updated") 0).Name = "Alice-Updated" ∧
    (Demo.hupd (fun _ => ⟨1, "Alice", "a@example.com", "Sendai"⟩) 0
        (Demo.withName ((fun _ => (⟨1, "Alice", "a@example.com", "Sendai"⟩ :
          Demo.User)) 0) "Alice-Updated") 0).ID =
      ((fun _ => (⟨1, "Alice", "a@example.com", "Sendai"⟩ : Demo.User)) 0).ID ∧
    Demo.deref (Demo.hupd (fun _ => ⟨1, "Alice", "a@example.com", "Sendai"⟩) 0
        (Demo.withName ((fun _ => (⟨1, "Alice", "a@example.com", "Sendai"⟩ :
          Demo.User)) 0) "Alice-Updated")) (some 0) =
      some (Demo.withName ((fun _ => (⟨1, "Alice", "a@example.com", "Sendai"⟩ :
          Demo.User)) 0) "Alice-Updated") :=
  filterPtr_aliases_source (fun _ => ⟨1, "Alice", "a@example.com", "Sendai"⟩)
    (fun p => (p.map Demo.User.City).getD "" == "Sendai") [some 0] 0
    (by decide) "Alice-Updated"

/-- Every pointer returned by filterPtrDeepCopy is a freshly allocated
address: at or above the allocation base. -/
theorem filterPtrDeepCopy_fresh_addrs (pred : Option Demo.User → Bool)
    (ps : List (Option Nat)) (h : Demo.Heap) (base : Nat) :
    ∀ b ∈ (Demo.filterPtrDeepCopy pred ps h base).1, base ≤ b := by
  induction ps generalizing h base with
  | nil => intro b hb; cases hb
  | cons p ps ih =>
    intro b hb
    rcases p with _ | a
    · exact ih h base b hb
    · simp only [Demo.filterPtrDeepCopy] at hb
      split at hb
      · cases hb with
        | head => exact le_refl _
        | tail _ hb =>
          have := ih (Demo.hupd h base (h a)) (base + 1) b hb
          omega
      · exact ih h base b hb

/-- filterPtrDeepCopy writes only at the fresh addresses: below the
allocation base the resulting heap agrees with the initial one. -/
theorem filterPtrDeepCopy_frame (pred : Option Demo.User → Bool)
    (ps : List (Option Nat)) (h : Demo.Heap) (base : Nat) (x : Nat)
    (hx : x < base) :
    (Demo.filterPtrDeepCopy pred ps h base).2 x = h x := by
  induction ps generalizing h base with
  | nil => rfl
  | cons p ps ih =>
    rcases p with _ | a
    · exact ih h base hx
    · simp only [Demo.filterPtrDeepCopy]
      split
      · have := ih (Demo.hupd h base (h a)) (base + 1) (by omega)
        rw [this, Demo.hupd]
        simp [Nat.ne_of_lt hx]
      · exact ih h base hx

/-- Claim C5: after filtering with the deep-copying filter, writing any
record value through any returned pointer leaves every source record
unchanged: the filter allocates fresh cells (at or above `base`, which the
freshness hypothesis keeps disjoint from the source's addresses), so the
heap still holds the original record at every source address. -/
theorem filterPtrDeepCopy_independent (pred : Option Demo.User → Bool)
    (ps : List (Option Nat)) (h : Demo.Heap) (base : Nat)
    (hfresh : ∀ x : Nat, some x ∈ ps → x < base)
    (b : Nat) (hb : b ∈ (Demo.filterPtrDeepCopy pred ps h base).1)
    (v : Demo.User) (x : Nat) (hx : some x ∈ ps) :
    Demo.hupd (Demo.filterPtrDeepCopy pred ps h base).2 b v x = h x := by
  have hxb : x < base := hfresh x hx
  have hbb : base ≤ b := filterPtrDeepCopy_fresh_addrs pred ps h base b hb
  have hne : x ≠ b := by omega
  rw [Demo.hupd]
  simp only [hne, if_false]
  exact filterPtrDeepCopy_frame pred ps h base x hxb

/-- Closed instance of filterPtrDeepCopy_independent: one source record at
address 0, copy allocated at address 1, arbitrary overwrite through the
copy leaves the source cell intact. -/
theorem filterPtrDeepCopy_independent_witness :
    Demo.hupd (Demo.filterPtrDeepCopy (fun _ => true) [some 0]
        (fun _ => ⟨1, "Alice", "a@example.com", "Sendai"⟩) 1).2 1
        ⟨1, "Alice-DeepCopied", "a@example.com", "Sendai"⟩ 0 =
      (fun _ => (⟨1, "Alice", "a@example.com", "Sendai"⟩ : Demo.User)) 0 :=
  filterPtrDeepCopy_independent (fun _ => true) [some 0]
    (fun _ => ⟨1, "Alice", "a@example.com", "Sendai"⟩) 1
    (by intro x hx; simp at hx; omega) 1 (by decide)
    ⟨1, "Alice-DeepCopied", "a@example.com", "Sendai"⟩ 0 (by decide)

namespace Bench

/-- Backing-array store for value slices: a slice variable designates a
backing array by id, and the store gives each array's contents. Two
variables alias exactly when they designate the same array. -/
abbrev VStore : Type := Nat → List User

/-- Store update at one array id. -/
def vupd (st : VStore) (arr : Nat) (l : List User) : VStore :=
  fun x => if x = arr then l else st x

/-- Copy a2 := HogeA with Users: append([]User(nil), a.Users...): appending the
source's elements to a nil slice allocates a fresh backing array (id
`fresh`) holding copies of all elements. -/
def copyValueSlice (st : VStore) (arr fresh : Nat) : VStore :=
  vupd st fresh ([] ++ st arr)

/-- Mutation a2.Users[i] = v (main.go mutates element 0's Name): write element i of
the holder's own backing array. -/
def setElem (st : VStore) (arr i : Nat) (v : User) : VStore :=
  vupd st arr ((st arr).set i v)

end Bench

/-- Claim C6: for the value-sequence shape, copying (append to a nil value
slice) and then mutating any element of the copy never changes the
original: the copy lives in a fresh backing array, the mutation writes
only there, and the original array's contents stay structurally equal to
what they were before (and the copy's initial contents equal the
original's). -/
theorem value_slice_copy_independent (st : Bench.VStore)
    (arr fresh i : Nat) (v : Bench.User) (hne : fresh ≠ arr) :
    Bench.setElem (Bench.copyValueSlice st arr fresh) fresh i v arr =
      st arr ∧
    Bench.copyValueSlice st arr fresh fresh = st arr := by
  constructor <;>
    simp [Bench.setElem, Bench.copyValueSlice, Bench.vupd, hne, Ne.symm hne]

/-- Closed instance of value_slice_copy_independent: main.go's pattern A
demo — one Alice record, copy to a fresh array, rename in the copy; the
original array still holds the original record. -/
theorem value_slice_copy_independent_witness :
    Bench.setElem
        (Bench.copyValueSlice
          (fun _ => [⟨1, "Alice", 20, "a@example.com", "Sendai"⟩]) 0 1) 1 0
        ⟨1, "Changed in a2", 20, "a@example.com", "Sendai"⟩ 0 =
      (fun _ => [(⟨1, "Alice", 20, "a@example.com", "Sendai"⟩ :
        Bench.User)]) 0 ∧
    Bench.copyValueSlice
        (fun _ => [⟨1, "Alice", 20, "a@example.com", "Sendai"⟩]) 0 1 1 =
      (fun _ => [(⟨1, "Alice", 20, "a@example.com", "Sendai"⟩ :
        Bench.User)]) 0 :=
  value_slice_copy_independent
    (fun _ => [⟨1, "Alice", 20, "a@example.com", "Sendai"⟩]) 0 1 0
    ⟨1, "Changed in a2", 20, "a@example.com", "Sendai"⟩ (by decide)

namespace Bench

/-- Heap of User records for genPtrUsers: `us[i] = &u` makes each record
separately allocated and reachable only through its address. -/
abbrev UHeap : Type := Nat → User

/-- UHeap update at one address. -/
def uhupd (h : UHeap) (a : Nat) (v : User) : UHeap :=
  fun x => if x = a then v else h x

/-- The record the generator loops build at index i (the loop bodies of
genUsers and genPtrUsers are textually identical). strconv.Itoa of the
nonnegative loop index prints decimal digits, as Nat's toString does. -/
def genUser (i : Nat) : User :=
  { ID := i + 1, Name := "User_" ++ toString i, Age := 18 + i % 50,
    Email := "user" ++ toString i ++ "@example.com",
    City := "City" ++ toString (i % 10) }

/-- genUsers: make([]User, n) filled with us[i] = the i-th record. -/
def genUsers (n : Nat) : List User := (List.range n).map genUser

/-- The genPtrUsers loop from index i with k iterations left: build the
i-th record, allocate it in a fresh cell (consecutive addresses from
`base`), keep its pointer, continue. -/
def genPtrUsersAux (base : Nat) : Nat → Nat → UHeap → List Nat × UHeap
  | _, 0, h => ([], h)
  | i, k + 1, h =>
    let r := genPtrUsersAux base (i + 1) k (uhupd h (base + i) (genUser i))
    ((base + i) :: r.1, r.2)

/-- genPtrUsers: make([]*User, n), each slot a pointer to its own record. -/
def genPtrUsers (n : Nat) (h : UHeap) (base : Nat) : List Nat × UHeap :=
  genPtrUsersAux base 0 n h

end Bench

/-- The pointers genPtrUsers returns are the consecutive fresh addresses,
independent of the initial heap. -/
theorem genPtrUsersAux_fst (base : Nat) :
    ∀ (k i : Nat) (h : Bench.UHeap),
      (Bench.genPtrUsersAux base i k h).1 =
        (List.range' i k).map (fun j => base + j) := by
  intro k
  induction k with
  | zero => intro i h; rfl
  | succ k ih =>
    intro i h
    simp only [Bench.genPtrUsersAux, List.range'_succ, List.map_cons]
    exact congrArg _ (ih (i + 1) _)

/-- The genPtrUsers loop writes only the cells it allocates. -/
theorem genPtrUsersAux_frame (base : Nat) :
    ∀ (k i : Nat) (h : Bench.UHeap) (x : Nat),
      (∀ j, i ≤ j → j < i + k → x ≠ base + j) →
      (Bench.genPtrUsersAux base i k h).2 x = h x := by
  intro k
  induction k with
  | zero => intro i h x _; rfl
  | succ k ih =>
    intro i h x hx
    simp only [Bench.genPtrUsersAux]
    rw [ih (i + 1) (Bench.uhupd h (base + i) (Bench.genUser i)) x
      (fun j h1 h2 => hx j (by omega) (by omega))]
    rw [Bench.uhupd]
    simp [hx i (le_refl i) (by omega)]

/-- After the loop, the cell allocated for index j holds exactly the j-th
record, whatever the initial heap was. -/
theorem genPtrUsersAux_content (base : Nat) :
    ∀ (k i j : Nat) (h : Bench.UHeap), i ≤ j → j < i + k →
      (Bench.genPtrUsersAux base i k h).2 (base + j) = Bench.genUser j := by
  intro k
  induction k with
  | zero => intro i j h h1 h2; omega
  | succ k ih =>
    intro i j h h1 h2
    simp only [Bench.genPtrUsersAux]
    rcases eq_or_lt_of_le h1 with rfl | hlt
    · rw [genPtrUsersAux_frame base k (i + 1)
        (Bench.uhupd h (base + i) (Bench.genUser i)) (base + i)
        (fun j' hj1 _ => by omega)]
      rw [Bench.uhupd]
      simp
    · exact ih (i + 1) j _ hlt (by omega)

/-- Claim C8: the two generators are deterministic and equivalent. For
every n, genUsers n has exactly n records and genPtrUsers n returns
exactly n pointers; the record at position i is derived purely from i
(ID = i+1, Age = 18 + i mod 50, name/email/city indexed by i); and the
record genPtrUsers' i-th pointer refers to equals genUsers' i-th record —
independent of the initial heap and allocation base. -/
theorem gen_users_deterministic_equivalent (n : Nat) (h : Bench.UHeap)
    (base : Nat) (i : Nat) (hi : i < n) :
    (Bench.genUsers n).length = n ∧
    (Bench.genPtrUsers n h base).1.length = n ∧
    (Bench.genUsers n).getD i default = Bench.genUser i ∧
    (Bench.genUser i).ID = i + 1 ∧
    (Bench.genUser i).Age = 18 + i % 50 ∧
    (Bench.genUser i).Name = "User_" ++ toString i ∧
    (Bench.genUser i).Email = "user" ++ toString i ++ "@example.com" ∧
    (Bench.genUser i).City = "City" ++ toString (i % 10) ∧
    (Bench.genPtrUsers n h base).2
        ((Bench.genPtrUsers n h base).1.getD i 0) =
      (Bench.genUsers n).getD i default := by
  have hfst := genPtrUsersAux_fst base n 0 h
  have hget : (Bench.genUsers n).getD i default = Bench.genUser i := by
    rw [Bench.genUsers, List.getD_eq_getElem?_getD, List.getElem?_map,
      List.getElem?_range hi]
    rfl
  have hgetp : (Bench.genPtrUsers n h base).1.getD i 0 = base + i := by
    rw [Bench.genPtrUsers, hfst, List.getD_eq_getElem?_getD,
      List.getElem?_map, List.getElem?_range' 0 1 hi]
    simp
  refine ⟨by simp [Bench.genUsers], ?_, hget, rfl, rfl, rfl, rfl, rfl, ?_⟩
  · rw [Bench.genPtrUsers, hfst]
    simp [List.length_range']
  · rw [hgetp, hget, Bench.genPtrUsers,
      genPtrUsersAux_content base n 0 i h (Nat.zero_le i) (by omega)]

/-- Closed instance of gen_users_deterministic_equivalent at n = 2, i = 1. -/
theorem gen_users_deterministic_equivalent_witness :
    (Bench.genUsers 2).length = 2 ∧
    (Bench.genPtrUsers 2 (fun _ => default) 5).1.length = 2 ∧
    (Bench.genUsers 2).getD 1 default = Bench.genUser 1 ∧
    (Bench.genUser 1).ID = 1 + 1 ∧
    (Bench.genUser 1).Age = 18 + 1 % 50 ∧
    (Bench.genUser 1).Name = "User_" ++ toString 1 ∧
    (Bench.genUser 1).Email = "user" ++ toString 1 ++ "@example.com" ∧
    (Bench.genUser 1).City = "City" ++ toString (1 % 10) ∧
    (Bench.genPtrUsers 2 (fun _ => default) 5).2
        ((Bench.genPtrUsers 2 (fun _ => default) 5).1.getD 1 0) =
      (Bench.genUsers 2).getD 1 default :=
  gen_users_deterministic_equivalent 2 (fun _ => default) 5 1 (by decide)
